import Mathlib

/-!
Verification of the wire-format writer (`src/writer.js`) of a
Protocol-Buffers-compatible serializer.

The writer is embedded shallowly:

* JavaScript 32-bit coercions (`>>> 0`, `| 0`, `<<`, `>>`, `>>>`, `&`, `|`,
  `^`) are modelled over `Int`/`Nat` with explicit reductions modulo `2^32`.
* Each emit function (`writeByte`, `writeVarint32`, `writeVarint64`,
  `writeFixed32`, `writeBytes`, `writeString`) becomes a Lean function
  returning the list of bytes it stores, in order; the sequential
  `buf[pos++] = ...` stores of the source are exactly the list elements.
* The scalar writer methods are modelled on `WState`, the list of scheduled
  ops after the head sentinel together with the running length and the fork
  stack of saved `(ops, len)` frames.
* `fork`, `reset`, `ldelim` and `finish` manipulate the operation list
  through object references (`this.head`, `this.tail`, `op.next`), and the
  unguarded splice of `ldelim` can leave `this.tail` pointing at a node
  unreachable from `this.head`; these dynamics are modelled on `JSWriter`,
  a heap of allocated nodes with explicit `next` pointers, `head` and
  `tail` being node indices.
* `finish` allocates a zero buffer of length `len` and replays the queue
  positionally, advancing by each op's recorded length, exactly as
  `finish_internal` in the source does (out-of-range stores are dropped,
  as they are on a `Uint8Array`).

The `LongBits` helper lives in `util/runtime.js`, which is not part of the
sources under verification; its constructors and the in-place zig-zag are
modelled from the specification.
-/

namespace Proto

/-! ## JavaScript number coercions -/

/-- JavaScript `ToUint32`: the value reduced into `[0, 2^32)` (`x >>> 0`). -/
def toUint32 (v : Int) : Nat := (v % 4294967296).toNat

/-- JavaScript `ToInt32`: the value reduced into `[-2^31, 2^31)` (`x | 0`). -/
def toInt32 (v : Int) : Int := (v + 2147483648) % 4294967296 - 2147483648

/-- JavaScript `a << k` on 32-bit operands (result is a signed 32-bit value). -/
def jsShl (a : Int) (k : Nat) : Int := toInt32 ((toUint32 a * 2 ^ k : Nat) : Int)

/-- JavaScript arithmetic shift `a >> k` (sign-propagating, floor division). -/
def jsShr (a : Int) (k : Nat) : Int := Int.fdiv (toInt32 a) (2 ^ k)

/-- JavaScript logical shift `a >>> k`. -/
def jsShrU (a : Int) (k : Nat) : Nat := toUint32 a / 2 ^ k

/-- JavaScript bitwise `a & b` on 32-bit operands. -/
def jsAnd (a b : Int) : Int := toInt32 ((toUint32 a &&& toUint32 b : Nat) : Int)

/-- JavaScript bitwise `a | b` on 32-bit operands. -/
def jsOr (a b : Int) : Int := toInt32 ((toUint32 a ||| toUint32 b : Nat) : Int)

/-- JavaScript bitwise `a ^ b` on 32-bit operands. -/
def jsXor (a b : Int) : Int := toInt32 ((toUint32 a ^^^ toUint32 b : Nat) : Int)

/-! ## LongBits (64-bit values as a pair of unsigned 32-bit halves) -/

/-- Modelled from the spec: `LongBits` from `util/runtime.js` (not under the
verified sources) is a 64-bit unsigned value represented as a pair
`(lo, hi)` of 32-bit unsigned halves. -/
structure LongBits where
  lo : Nat
  hi : Nat
  deriving DecidableEq, Repr

/-- Modelled from the spec: `LongBits.fromNumber` builds the pair from a
number, a non-negative one split by division/mod by `2^32`, a negative one
via its two's-complement into 64 bits. -/
def LongBits.fromNumber (v : Int) : LongBits :=
  ⟨(v % 18446744073709551616).toNat % 4294967296,
   (v % 18446744073709551616).toNat / 4294967296⟩

/-- Modelled from the spec: `LongBits.from` normalizes a numeric input the
same way as `LongBits.fromNumber` (the string/long-object inputs of the
original have no counterpart here). -/
def LongBits.from (v : Int) : LongBits := LongBits.fromNumber v

/-- The 64-bit value a `LongBits` pair stands for. -/
def LongBits.toNat (b : LongBits) : Nat := b.hi * 4294967296 + b.lo

/-- Modelled from the spec: `zzEncode` applies the zig-zag transform
`n <<< 1 XOR n >>> 63` (arithmetic shift) to the 64-bit pair in place, i.e.
maps the signed value `n` to `2n` when `n ≥ 0` and to `-2n - 1` otherwise,
reduced into 64 bits. -/
def LongBits.zzEncode (b : LongBits) : LongBits :=
  let n : Int := if b.hi < 2147483648 then (b.toNat : Int) else (b.toNat : Int) - 18446744073709551616
  let z : Int := if 0 ≤ n then 2 * n else -2 * n - 1
  ⟨(z % 18446744073709551616).toNat % 4294967296,
   (z % 18446744073709551616).toNat / 4294967296⟩

/-- Modelled from the spec: `LongBits.length` returns
`min(10, ceil(bits_needed / 7))` where `bits_needed` is one more than the
position of the highest set bit of the pair, and `1` for the value zero. -/
def LongBits.length (b : LongBits) : Nat :=
  if b.toNat = 0 then 1 else min 10 ((Nat.log2 b.toNat + 1 + 6) / 7)

/-! ## Emit functions (the byte stores each scheduled op performs) -/

/-- `writeByte`: stores `val & 255`. -/
def writeByte (val : Int) : List Nat := [toUint32 val &&& 255]

/-- `writeVarint32`: stores `val & 127 | 128` and shifts `val >>>= 7` while
`val > 127`, then stores the remaining `val`. -/
def writeVarint32 (val : Nat) : List Nat :=
  if val > 127 then (val &&& 127 ||| 128) :: writeVarint32 (val >>> 7) else [val]
  decreasing_by simp only [Nat.shiftRight_succ, Nat.shiftRight_zero]; omega

/-- The `while (val.lo > 127)` loop of `writeVarint64` together with the
final store: at this point `val.hi` is zero, so the update
`val.lo = (val.lo >>> 7 | val.hi << 25) >>> 0` keeps only `val.lo >>> 7`. -/
def writeVarint64Lo (lo : Nat) : List Nat :=
  if lo > 127 then (lo &&& 127 ||| 128) :: writeVarint64Lo (lo >>> 7) else [lo]
  decreasing_by simp only [Nat.shiftRight_succ, Nat.shiftRight_zero]; omega

/-- The `while (val.hi)` loop of `writeVarint64`: stores `val.lo & 127 | 128`,
then sets `val.lo = (val.lo >>> 7 | val.hi << 25) >>> 0` and `val.hi >>>= 7`. -/
def writeVarint64Hi (lo hi : Nat) : List Nat :=
  if hi ≠ 0 then
    (lo &&& 127 ||| 128) :: writeVarint64Hi (lo >>> 7 ||| (hi <<< 25) % 4294967296) (hi >>> 7)
  else writeVarint64Lo lo
  decreasing_by simp only [Nat.shiftRight_succ, Nat.shiftRight_zero]; omega

/-- `writeVarint64`: the two loops of the source over the `(lo, hi)` pair. -/
def writeVarint64 (val : LongBits) : List Nat := writeVarint64Hi val.lo val.hi

/-- `writeFixed32`: four little-endian byte stores of an unsigned 32-bit
pattern (`val & 255`, `val >>> 8 & 255`, `val >>> 16 & 255`, `val >>> 24`). -/
def writeFixed32 (val : Int) : List Nat :=
  [toUint32 val &&& 255, jsShrU val 8 &&& 255, jsShrU val 16 &&& 255, jsShrU val 24]

/-- `writeBytes`: copies the byte sequence verbatim. -/
def writeBytes (val : List Nat) : List Nat := val

/-- `writeString`: UTF-8 emission over the UTF-16 code units of the input.
A high surrogate followed by a low surrogate consumes both units and emits
four bytes; `charCodeAt` past the end is `NaN` in the source, whose
masked comparison fails, so a trailing lone surrogate takes the 3-byte
branch. -/
def writeString : List Nat → List Nat
  | [] => []
  | [c1] =>
    if c1 < 128 then [c1]
    else if c1 < 2048 then [c1 >>> 6 ||| 192, c1 &&& 63 ||| 128]
    else [c1 >>> 12 ||| 224, c1 >>> 6 &&& 63 ||| 128, c1 &&& 63 ||| 128]
  | c1 :: c2 :: rest2 =>
    if c1 < 128 then c1 :: writeString (c2 :: rest2)
    else if c1 < 2048 then
      (c1 >>> 6 ||| 192) :: (c1 &&& 63 ||| 128) :: writeString (c2 :: rest2)
    else if c1 &&& 0xFC00 = 0xD800 ∧ c2 &&& 0xFC00 = 0xDC00 then
      let c := 0x10000 + ((c1 &&& 0x03FF) <<< 10) + (c2 &&& 0x03FF)
      (c >>> 18 ||| 240) :: (c >>> 12 &&& 63 ||| 128) :: (c >>> 6 &&& 63 ||| 128) ::
        (c &&& 63 ||| 128) :: writeString rest2
    else (c1 >>> 12 ||| 224) :: (c1 >>> 6 &&& 63 ||| 128) :: (c1 &&& 63 ||| 128) ::
      writeString (c2 :: rest2)

/-- `byteLength`: the UTF-8 byte-count pre-scan over the same branches as
`writeString`. -/
def byteLength : List Nat → Nat
  | [] => 0
  | [c1] => if c1 < 128 then 1 else if c1 < 2048 then 2 else 3
  | c1 :: c2 :: rest2 =>
    if c1 < 128 then 1 + byteLength (c2 :: rest2)
    else if c1 < 2048 then 2 + byteLength (c2 :: rest2)
    else if c1 &&& 0xFC00 = 0xD800 ∧ c2 &&& 0xFC00 = 0xDC00 then 4 + byteLength rest2
    else 3 + byteLength (c2 :: rest2)

/-! ## The operation queue and writer state -/

/-- The emit function together with the value snapshot captured by an `Op`
(the source stores a function pointer `fn` and an untyped `val`; here the
pairing is a tagged variant, one tag per emit function that `writer.js`
pushes, plus `noop`, the do-nothing emit function of the head sentinels). -/
inductive EmitFn where
  | noop
  | byteOp (val : Int)
  | varint32Op (val : Nat)
  | varint64Op (val : LongBits)
  | fixed32Op (val : Int)
  | bytesOp (val : List Nat)
  | stringOp (val : List Nat)
  deriving DecidableEq, Repr

/-- The bytes an emit function stores for its captured value. -/
def EmitFn.emit : EmitFn → List Nat
  | .noop => []
  | .byteOp v => writeByte v
  | .varint32Op v => writeVarint32 v
  | .varint64Op v => writeVarint64 v
  | .fixed32Op v => writeFixed32 v
  | .bytesOp v => writeBytes v
  | .stringOp v => writeString v

/-- A scheduled writer operation: emit function with captured value, plus
the byte length recorded at `push` time. -/
structure Op where
  fn : EmitFn
  len : Nat
  deriving DecidableEq, Repr

/-- A writer state for the scalar writer methods, which only ever append at
the tail: the operation queue after the head sentinel (`head` is a no-op of
length 0 and never emitted), the running byte length, and the stack of
forked states, each a saved `(ops, len)` pair.  The linked-list surgery of
`fork`, `reset`, `ldelim` and `finish`, which goes through object
references in the source, is modelled on the pointer-level `JSWriter`
below. -/
structure WState where
  ops : List Op
  len : Nat
  states : List (List Op × Nat)
  deriving DecidableEq, Repr

/-- A fresh writer: empty queue, zero length, no forked states. -/
def WState.empty : WState := ⟨[], 0, []⟩

/-- `push(fn, len, val)`: appends an op at the tail and advances `len`. -/
def WState.push (w : WState) (fn : EmitFn) (len : Nat) : WState :=
  ⟨w.ops ++ [⟨fn, len⟩], w.len + len, w.states⟩

/-- `tag(id, wireType)`: one byte op holding `id << 3 | wireType & 7`. -/
def WState.tag (w : WState) (id wireType : Int) : WState :=
  w.push (.byteOp (jsOr (jsShl id 3) (jsAnd wireType 7))) 1

/-- `uint32(value)`: coerce with `>>> 0`; a single byte below 128, else a
varint op of 2, 3, 4 or 5 bytes by magnitude. -/
def WState.uint32 (w : WState) (value : Int) : WState :=
  let value := toUint32 value
  if value < 128 then w.push (.byteOp value) 1
  else w.push (.varint32Op value)
    (if value < 16384 then 2 else if value < 2097152 then 3
     else if value < 268435456 then 4 else 5)

/-- `int32(value)`: negative values go through a 10-byte 64-bit varint of
the sign-extended `LongBits`, non-negative ones behave as `uint32`. -/
def WState.int32 (w : WState) (value : Int) : WState :=
  if value < 0 then w.push (.varint64Op (LongBits.fromNumber value)) 10
  else w.uint32 value

/-- `sint32(value)`: `uint32` of the zig-zag `value << 1 ^ value >> 31`. -/
def WState.sint32 (w : WState) (value : Int) : WState :=
  w.uint32 (jsXor (jsShl value 1) (jsShr value 31))

/-- `uint64(value)` (and its alias `int64`): normalize to `LongBits`, push
a 64-bit varint op of the pair's varint length. -/
def WState.uint64 (w : WState) (value : Int) : WState :=
  let bits := LongBits.from value
  w.push (.varint64Op bits) bits.length

/-- `sint64(value)`: zig-zag the `LongBits` pair in place, then as `uint64`. -/
def WState.sint64 (w : WState) (value : Int) : WState :=
  let bits := (LongBits.from value).zzEncode
  w.push (.varint64Op bits) bits.length

/-- `bool(value)`: one byte, 1 or 0. -/
def WState.boolW (w : WState) (value : Bool) : WState :=
  w.push (.byteOp (if value then 1 else 0)) 1

/-- `fixed32(value)`: four little-endian bytes of `value >>> 0`. -/
def WState.fixed32 (w : WState) (value : Int) : WState :=
  w.push (.fixed32Op (toUint32 value)) 4

/-- `sfixed32(value)`: four little-endian bytes of the zig-zag transform. -/
def WState.sfixed32 (w : WState) (value : Int) : WState :=
  w.push (.fixed32Op (jsXor (jsShl value 1) (jsShr value 31))) 4

/-- `fixed64(value)`: normalize to `LongBits`, then push the `hi` half and
then the `lo` half as two 4-byte little-endian groups — this is the order
the source pushes them in. -/
def WState.fixed64 (w : WState) (value : Int) : WState :=
  let bits := LongBits.from value
  (w.push (.fixed32Op (bits.hi : Int)) 4).push (.fixed32Op (bits.lo : Int)) 4

/-- `sfixed64(value)`: as `fixed64` after the in-place zig-zag. -/
def WState.sfixed64 (w : WState) (value : Int) : WState :=
  let bits := (LongBits.from value).zzEncode
  (w.push (.fixed32Op (bits.hi : Int)) 4).push (.fixed32Op (bits.lo : Int)) 4

/-- `bytes(value)`: a `uint32` length prefix and the raw bytes, or the
single byte 0 when empty. -/
def WState.bytesW (w : WState) (value : List Nat) : WState :=
  let len := value.length
  if len ≠ 0 then (w.uint32 (len : Int)).push (.bytesOp value) len
  else w.push (.byteOp 0) 1

/-- `string(value)`: a `uint32` prefix of the UTF-8 `byteLength` and a
string op, or the single byte 0 when empty. -/
def WState.stringW (w : WState) (value : List Nat) : WState :=
  let len := byteLength value
  if len ≠ 0 then (w.uint32 (len : Int)).push (.stringOp value) len
  else w.push (.byteOp 0) 1

/-! ## finish -/

/-- Sequential byte stores into a buffer starting at `pos`, dropping stores
past the end, as assignments into a `Uint8Array` do. -/
def writeAt (buf : List Nat) (pos : Nat) : List Nat → List Nat
  | [] => buf
  | b :: rest => writeAt (buf.set pos b) (pos + 1) rest

/-- `finish_internal`: walks the queue, calling each op's emit function at
the current position and advancing by the op's recorded length. -/
def finishInternal (buf : List Nat) (pos : Nat) : List Op → List Nat
  | [] => buf
  | op :: rest => finishInternal (writeAt buf pos op.fn.emit) (pos + op.len) rest

/-- The buffer `finish()` returns: a fresh zero buffer of length `len`
replayed from the head of the queue. -/
def WState.finishBytes (w : WState) : List Nat :=
  finishInternal (List.replicate w.len 0) 0 w.ops

/-! ## The pointer-level writer

The scalar methods only ever append at the current tail, so the queue view
of `WState` captures them exactly.  `fork`, `reset`, `ldelim` and `finish`
instead manipulate the linked list through object references: the splice of
`ldelim` is

    this.tail.next = head.next; this.tail = tail; this.len += len;

and when the forked frame is empty the captured `tail` is the inner head
sentinel, which no node of the restored list points to.  After that splice
`this.tail` is desynchronized from the chain starting at `this.head`:
later pushes extend an unreachable chain and `finish`, which walks
`head.next`, never sees them, while `len` still counts them.  To represent
such states the model below gives every allocated node an index (its
position in allocation order) and stores each node's `next` pointer
explicitly; `head`, `tail` and the entries of the saved fork frames are
node indices. -/

/-- An allocated node of the operation list: emit function, recorded byte
length and the `next` pointer (the index of the next node, if any). -/
structure JSNode where
  fn : EmitFn
  len : Nat
  next : Option Nat
  deriving DecidableEq, Repr

/-- Overwrite the `next` pointer of node `i` (`node.next = nxt`). -/
def setNext (nodes : List JSNode) (i : Nat) (nxt : Option Nat) : List JSNode :=
  match nodes[i]? with
  | some n => nodes.set i ⟨n.fn, n.len, nxt⟩
  | none => nodes

/-- The `next` pointer of node `i`. -/
def nextOf (nodes : List JSNode) (i : Nat) : Option Nat :=
  match nodes[i]? with
  | some n => n.next
  | none => none

/-- The writer as it lives in memory: the heap of allocated nodes, the
`head` and `tail` references, the running byte length and the saved
`(head, tail, len)` frames of the fork stack. -/
structure JSWriter where
  nodes : List JSNode
  head : Nat
  tail : Nat
  len : Nat
  states : List (Nat × Nat × Nat)
  deriving DecidableEq, Repr

/-- A fresh writer: one head sentinel (`new Op(noop, 0, 0)`), `tail`
pointing at it, zero length, no saved frames. -/
def JSWriter.new : JSWriter := ⟨[⟨.noop, 0, none⟩], 0, 0, 0, []⟩

/-- `push(fn, len, val)`: allocate the op, link it behind the current tail
(`this.tail.next = op`), move `tail` onto it and advance `len`. -/
def JSWriter.push (w : JSWriter) (fn : EmitFn) (len : Nat) : JSWriter :=
  ⟨setNext (w.nodes ++ [⟨fn, len, none⟩]) w.tail (some w.nodes.length),
    w.head, w.nodes.length, w.len + len, w.states⟩

/-- `tag(id, wireType)` on the pointer-level writer. -/
def JSWriter.tag (w : JSWriter) (id wireType : Int) : JSWriter :=
  w.push (.byteOp (jsOr (jsShl id 3) (jsAnd wireType 7))) 1

/-- `uint32(value)` on the pointer-level writer: the same branches as
`WState.uint32`. -/
def JSWriter.uint32 (w : JSWriter) (value : Int) : JSWriter :=
  let value := toUint32 value
  if value < 128 then w.push (.byteOp (value : Int)) 1
  else w.push (.varint32Op value)
    (if value < 16384 then 2 else if value < 2097152 then 3
     else if value < 268435456 then 4 else 5)

/-- `fork()`: save `(head, tail, len)` on the stack and start a fresh
sentinel (`this.head = this.tail = new Op(noop, 0, 0); this.len = 0`). -/
def JSWriter.fork (w : JSWriter) : JSWriter :=
  ⟨w.nodes ++ [⟨.noop, 0, none⟩], w.nodes.length, w.nodes.length, 0,
    (w.head, w.tail, w.len) :: w.states⟩

/-- `reset()`: restore the top saved frame, or re-initialize with a fresh
sentinel when the stack is empty. -/
def JSWriter.reset (w : JSWriter) : JSWriter :=
  match w.states with
  | (h, t, l) :: rest => ⟨w.nodes, h, t, l, rest⟩
  | [] => ⟨w.nodes ++ [⟨.noop, 0, none⟩], w.nodes.length, w.nodes.length, 0, []⟩

/-- `ldelim(id?)`: capture `head`, `tail` and `len`, `reset()`, optionally
`tag(id, 2)`, then `uint32(len)` and the splice

    this.tail.next = head.next; this.tail = tail; this.len += len;

performed unconditionally — also when the captured frame is empty and its
`tail` is the unreachable inner sentinel. -/
def JSWriter.ldelim (w : JSWriter) (id : Option Int) : JSWriter :=
  let head := w.head
  let tail := w.tail
  let len := w.len
  let w := w.reset
  let w := match id with
    | some i => w.tag i 2
    | none => w
  let w := w.uint32 (len : Int)
  ⟨setNext w.nodes w.tail (nextOf w.nodes head), w.head, tail, w.len + len,
    w.states⟩

/-- One step of the `finish` walk per unit of fuel: run the node's emit
function at `pos`, advance by the recorded length, follow `next`.  The
fuel only bounds the walk; on a chain that reaches a null `next` within
the fuel (`chainEnds`) the walk is exactly the loop of `finish_internal`. -/
def walkChain (nodes : List JSNode) : Nat → Option Nat → List Nat → Nat → List Nat
  | _, none, buf, _ => buf
  | 0, some _, buf, _ => buf
  | fuel + 1, some i, buf, pos =>
    match nodes[i]? with
    | none => buf
    | some n => walkChain nodes fuel n.next (writeAt buf pos n.fn.emit) (pos + n.len)

/-- The ops on the chain starting at `cur`, in order. -/
def collectChain (nodes : List JSNode) : Nat → Option Nat → List Op
  | _, none => []
  | 0, some _ => []
  | fuel + 1, some i =>
    match nodes[i]? with
    | none => []
    | some n => ⟨n.fn, n.len⟩ :: collectChain nodes fuel n.next

/-- Whether the chain starting at `cur` reaches a null `next` within the
fuel, every step through an allocated node. -/
def chainEnds (nodes : List JSNode) : Nat → Option Nat → Bool
  | _, none => true
  | 0, some _ => false
  | fuel + 1, some i =>
    match nodes[i]? with
    | none => false
    | some n => chainEnds nodes fuel n.next

/-- The ops `finish` walks: the chain from `this.head.next`. -/
def JSWriter.reachableOps (w : JSWriter) : List Op :=
  collectChain w.nodes w.nodes.length (nextOf w.nodes w.head)

/-- The buffer `finish()` returns: `new ArrayImpl(this.len)` replayed along
the chain from `this.head.next`, both captured before the `reset()` call of
`finish` (the reset at most allocates a node no chain reaches, so walking
in the pre-reset heap is exact). -/
def JSWriter.finishBytes (w : JSWriter) : List Nat :=
  walkChain w.nodes w.nodes.length (nextOf w.nodes w.head)
    (List.replicate w.len 0) 0

/-- `finish()`: the buffer and the writer after its `reset()`. -/
def JSWriter.finish (w : JSWriter) : List Nat × JSWriter :=
  (w.finishBytes, w.reset)

/-! ## Derived notions used in the statements and proofs -/

/-- Sum of the recorded byte lengths of a queue of ops. -/
def sumLens : List Op → Nat
  | [] => 0
  | op :: rest => op.len + sumLens rest

/-- Concatenated emission of a queue of ops (what the queue contributes to
the output when every op's recorded length is exact). -/
def emitAll : List Op → List Nat
  | [] => []
  | op :: rest => op.fn.emit ++ emitAll rest

/-- An op is good when its emit function stores exactly the recorded
number of bytes. -/
def Op.Good (op : Op) : Prop := op.fn.emit.length = op.len

/-- The byte-count table of the claim for `uint32`: 1, 2, 3, 4 or 5 bytes
by the magnitude of the coerced value. -/
def uint32Len (u : Nat) : Nat :=
  if u < 128 then 1 else if u < 16384 then 2 else if u < 2097152 then 3
  else if u < 268435456 then 4 else 5

/-- Varint encoding of a natural number, seven bits per byte, low group
first, continuation bit on every byte but the last (the mathematical
counterpart the loops of the source implement). -/
def natVarint (n : Nat) : List Nat :=
  if n > 127 then (n % 128 + 128) :: natVarint (n / 128) else [n]
  decreasing_by omega

/-- Decoder of the varint byte format, used to state round-trip claims. -/
def readVarint : List Nat → Nat
  | [] => 0
  | b :: rest => (b &&& 127) + 128 * readVarint rest

/-- The inverse zig-zag map on 32-bit values, used to state the zig-zag
round-trip claim. -/
def zzDecode32 (u : Nat) : Int :=
  if u % 2 = 0 then (u / 2 : Nat) else -((u / 2 : Nat) : Int) - 1

/-- The single op `uint32` pushes for a value. -/
def uint32Op (v : Int) : Op :=
  if toUint32 v < 128 then ⟨.byteOp (toUint32 v : Int), 1⟩
  else ⟨.varint32Op (toUint32 v),
    if toUint32 v < 16384 then 2 else if toUint32 v < 2097152 then 3
    else if toUint32 v < 268435456 then 4 else 5⟩

/-! ## Coercion lemmas -/

theorem toUint32_lt (v : Int) : toUint32 v < 4294967296 := by
  simp only [toUint32]
  omega

theorem toUint32_lt_pow (v : Int) : toUint32 v < 2 ^ 32 := by
  have := toUint32_lt v
  norm_num at this ⊢
  exact this

theorem toUint32_natCast (n : Nat) : toUint32 (n : Int) = n % 4294967296 := by
  simp only [toUint32]
  omega

theorem toUint32_natCast_of_lt {n : Nat} (h : n < 4294967296) : toUint32 (n : Int) = n := by
  rw [toUint32_natCast]
  omega

theorem toUint32_toInt32_natCast (n : Nat) :
    toUint32 (toInt32 (n : Int)) = n % 4294967296 := by
  simp only [toUint32, toInt32]
  omega

theorem toUint32_jsAnd (a b : Int) : toUint32 (jsAnd a b) = toUint32 a &&& toUint32 b := by
  rw [jsAnd, toUint32_toInt32_natCast, Nat.mod_eq_of_lt]
  have h := Nat.and_lt_two_pow (toUint32 a) (toUint32_lt_pow b)
  norm_num at h
  exact h

theorem toUint32_jsOr (a b : Int) : toUint32 (jsOr a b) = toUint32 a ||| toUint32 b := by
  rw [jsOr, toUint32_toInt32_natCast, Nat.mod_eq_of_lt]
  have h := Nat.or_lt_two_pow (toUint32_lt_pow a) (toUint32_lt_pow b)
  norm_num at h
  exact h

theorem toUint32_jsXor (a b : Int) : toUint32 (jsXor a b) = toUint32 a ^^^ toUint32 b := by
  rw [jsXor, toUint32_toInt32_natCast, Nat.mod_eq_of_lt]
  have h := Nat.xor_lt_two_pow (toUint32_lt_pow a) (toUint32_lt_pow b)
  norm_num at h
  exact h

theorem toUint32_jsShl (a : Int) (k : Nat) :
    toUint32 (jsShl a k) = toUint32 a * 2 ^ k % 4294967296 := by
  rw [jsShl, toUint32_toInt32_natCast]

/-! ## Bitwise arithmetic bridges -/

theorem and_255_eq (n : Nat) : n &&& 255 = n % 256 := by
  have h := Nat.and_pow_two_sub_one_eq_mod n 8
  norm_num at h
  exact h

theorem and_127_eq (n : Nat) : n &&& 127 = n % 128 := by
  have h := Nat.and_pow_two_sub_one_eq_mod n 7
  norm_num at h
  exact h

theorem and_63_eq (n : Nat) : n &&& 63 = n % 64 := by
  have h := Nat.and_pow_two_sub_one_eq_mod n 6
  norm_num at h
  exact h

theorem and_7_eq (n : Nat) : n &&& 7 = n % 8 := by
  have h := Nat.and_pow_two_sub_one_eq_mod n 3
  norm_num at h
  exact h

theorem shiftRight_7_eq (n : Nat) : n >>> 7 = n / 128 := by
  rw [Nat.shiftRight_eq_div_pow]

/-- A bitwise or of disjoint ranges is an addition: a low part below `2^k`
or-ed with a multiple of `2^k`. -/
theorem or_of_lt_eq_add {a : Nat} (c : Nat) {k : Nat} (h : a < 2 ^ k) :
    a ||| c * 2 ^ k = c * 2 ^ k + a := by
  rw [Nat.or_comm, Nat.mul_comm c (2 ^ k), ← Nat.mul_add_lt_is_or h, Nat.mul_comm (2 ^ k) c]

/-- Exclusive or with an all-ones mask is complementation below the mask. -/
theorem xor_ones {k x : Nat} (h : x < 2 ^ k) : x ^^^ (2 ^ k - 1) = 2 ^ k - 1 - x := by
  apply Nat.eq_of_testBit_eq
  intro i
  have h1 : 2 ^ k - 1 - x = 2 ^ k - (x + 1) := by omega
  rw [Nat.testBit_xor, Nat.testBit_two_pow_sub_one, h1, Nat.testBit_two_pow_sub_succ h]
  rcases Nat.lt_or_ge i k with hik | hik
  · simp [hik]
  · have hx : x.testBit i = false :=
      Nat.testBit_lt_two_pow (Nat.lt_of_lt_of_le h (Nat.pow_le_pow_right (by omega) hik))
    simp [hx, Nat.not_lt.mpr hik, Nat.lt_irrefl]

/-! ## Varint lemmas -/

theorem natVarint_step {n : Nat} (h : 127 < n) :
    natVarint n = (n % 128 + 128) :: natVarint (n / 128) := by
  rw [natVarint]
  simp [h]

theorem natVarint_last {n : Nat} (h : n ≤ 127) : natVarint n = [n] := by
  rw [natVarint]
  simp [Nat.not_lt.mpr h]

theorem mod128_or_128 (n : Nat) : n % 128 &&& 127 ||| 128 = n % 128 + 128 := by
  have h1 : n % 128 &&& 127 = n % 128 := by
    rw [and_127_eq]
    omega
  have h2 : (128 : Nat) = 1 * 2 ^ 7 := by norm_num
  rw [h1, h2, or_of_lt_eq_add 1 (by omega)]
  omega

theorem and127_or_128 (n : Nat) : n &&& 127 ||| 128 = n % 128 + 128 := by
  have h1 : n &&& 127 = n % 128 := and_127_eq n
  have h2 : (128 : Nat) = 1 * 2 ^ 7 := by norm_num
  rw [h1, h2, or_of_lt_eq_add 1 (by omega)]
  omega

theorem writeVarint32_eq_natVarint (u : Nat) : writeVarint32 u = natVarint u := by
  induction u using Nat.strong_induction_on with
  | _ u ih =>
    rw [writeVarint32, natVarint]
    by_cases h : u > 127
    · simp only [h, if_true]
      rw [and127_or_128, shiftRight_7_eq, ih (u / 128) (by omega)]
    · simp [h]

theorem writeVarint64Lo_eq_natVarint (u : Nat) : writeVarint64Lo u = natVarint u := by
  induction u using Nat.strong_induction_on with
  | _ u ih =>
    rw [writeVarint64Lo, natVarint]
    by_cases h : u > 127
    · simp only [h, if_true]
      rw [and127_or_128, shiftRight_7_eq, ih (u / 128) (by omega)]
    · simp [h]

theorem writeVarint64Hi_eq_natVarint (hi : Nat) : ∀ lo, lo < 4294967296 →
    hi < 4294967296 → writeVarint64Hi lo hi = natVarint (hi * 4294967296 + lo) := by
  induction hi using Nat.strong_induction_on with
  | _ hi ih =>
    intro lo hlo hhi
    rw [writeVarint64Hi]
    by_cases h : hi = 0
    · subst h
      simp [writeVarint64Lo_eq_natVarint]
    · simp only [h, ne_eq, not_false_eq_true, if_true]
      have hsh : (hi <<< 25) % 4294967296 = hi % 128 * 33554432 := by
        rw [Nat.shiftLeft_eq]
        have : (4294967296 : Nat) = 128 * 2 ^ 25 := by norm_num
        rw [this, Nat.mul_mod_mul_right]
      have hdiv : lo >>> 7 = lo / 128 := shiftRight_7_eq lo
      have hlt : lo / 128 < 2 ^ 25 := by omega
      have hor : lo / 128 ||| hi % 128 * 33554432 = hi % 128 * 33554432 + lo / 128 := by
        have h2 : (33554432 : Nat) = 2 ^ 25 := by norm_num
        rw [h2, or_of_lt_eq_add (hi % 128) hlt]
      rw [hdiv, hsh, hor, and127_or_128, shiftRight_7_eq hi,
        ih (hi / 128) (by omega) (hi % 128 * 33554432 + lo / 128) (by omega) (by omega),
        natVarint_step (show (127 : Nat) < hi * 4294967296 + lo by omega)]
      have e1 : (hi * 4294967296 + lo) % 128 = lo % 128 := by omega
      have e2 : (hi * 4294967296 + lo) / 128 =
          hi / 128 * 4294967296 + (hi % 128 * 33554432 + lo / 128) := by omega
      rw [e1, e2]

theorem writeVarint64_eq_natVarint (b : LongBits) (hlo : b.lo < 4294967296)
    (hhi : b.hi < 4294967296) : writeVarint64 b = natVarint b.toNat := by
  rw [writeVarint64, writeVarint64Hi_eq_natVarint b.hi b.lo hlo hhi, LongBits.toNat]

theorem natVarint_length (n : Nat) : (natVarint n).length = Nat.log2 n / 7 + 1 := by
  induction n using Nat.strong_induction_on with
  | _ n ih =>
    by_cases h : 127 < n
    · rw [natVarint_step h]
      have hlog : Nat.log2 (n / 128) = Nat.log2 n - 7 := by
        have d7 : n / 128 = n / 2 / 2 / 2 / 2 / 2 / 2 / 2 := by omega
        rw [Nat.log2_eq_log_two, d7]
        rw [Nat.log_div_base, Nat.log_div_base, Nat.log_div_base, Nat.log_div_base,
          Nat.log_div_base, Nat.log_div_base, Nat.log_div_base, ← Nat.log2_eq_log_two]
        omega
      have hge : 7 ≤ Nat.log2 n := by
        rw [Nat.le_log2 (by omega)]
        norm_num
        omega
      rw [List.length_cons, ih (n / 128) (by omega), hlog]
      omega
    · rw [natVarint_last (by omega), List.length_singleton]
      by_cases h0 : n = 0
      · simp [h0]
      · have : Nat.log2 n < 7 := by
          rw [Nat.log2_lt h0]
          norm_num
          omega
        omega

/-! ## LongBits lemmas -/

theorem fromNumber_lo_lt (v : Int) : (LongBits.fromNumber v).lo < 4294967296 := by
  simp only [LongBits.fromNumber]
  omega

theorem fromNumber_hi_lt (v : Int) : (LongBits.fromNumber v).hi < 4294967296 := by
  simp only [LongBits.fromNumber]
  omega

theorem zzEncode_lo_lt (b : LongBits) : b.zzEncode.lo < 4294967296 := by
  simp only [LongBits.zzEncode]
  omega

theorem zzEncode_hi_lt (b : LongBits) : b.zzEncode.hi < 4294967296 := by
  simp only [LongBits.zzEncode]
  omega

/-- The emitted 64-bit varint has exactly the byte count recorded from the
spec's `LongBits.length` formula. -/
theorem writeVarint64_length_eq (b : LongBits) (hlo : b.lo < 4294967296)
    (hhi : b.hi < 4294967296) : (writeVarint64 b).length = b.length := by
  rw [writeVarint64_eq_natVarint b hlo hhi, natVarint_length, LongBits.length]
  by_cases h0 : b.toNat = 0
  · rw [if_pos h0, h0]
    simp
  · rw [if_neg h0]
    have hlt : b.toNat < 18446744073709551616 := by
      rw [LongBits.toNat]
      omega
    have hlog : Nat.log2 b.toNat < 64 := by
      rw [Nat.log2_lt h0]
      norm_num
      omega
    omega

/-- For a negative 32-bit value, the sign-extended `LongBits` emits exactly
10 varint bytes. -/
theorem writeVarint64_fromNumber_neg (v : Int) (h1 : -2147483648 ≤ v) (h2 : v < 0) :
    (writeVarint64 (LongBits.fromNumber v)).length = 10 := by
  have hb : (LongBits.fromNumber v).toNat = ((v % 18446744073709551616).toNat : Nat) := by
    simp only [LongBits.fromNumber, LongBits.toNat]
    omega
  have hrange : 9223372036854775808 ≤ (LongBits.fromNumber v).toNat ∧
      (LongBits.fromNumber v).toNat < 18446744073709551616 := by
    rw [hb]
    omega
  rw [writeVarint64_eq_natVarint _ (fromNumber_lo_lt v) (fromNumber_hi_lt v),
    natVarint_length]
  have h0 : (LongBits.fromNumber v).toNat ≠ 0 := by omega
  have hlog1 : Nat.log2 (LongBits.fromNumber v).toNat < 64 := by
    rw [Nat.log2_lt h0]
    norm_num
    omega
  have hlog2 : 63 ≤ Nat.log2 (LongBits.fromNumber v).toNat := by
    rw [Nat.le_log2 h0]
    norm_num
    omega
  omega

/-! ## Shape of the 32-bit varint encoding -/

/-- The varint loop produces exactly `uint32Len u` bytes: 7-bit groups,
least-significant first, continuation bit on all but the last. -/
theorem natVarint_shape (u : Nat) (h : u < 4294967296) :
    natVarint u = (List.range (uint32Len u - 1)).map (fun i => u / 128 ^ i % 128 + 128)
      ++ [u / 128 ^ (uint32Len u - 1)] ∧ u / 128 ^ (uint32Len u - 1) < 128 := by
  by_cases h1 : u < 128
  · have hL : uint32Len u = 1 := by simp [uint32Len, h1]
    rw [hL, natVarint_last (by omega)]
    norm_num
    omega
  · by_cases h2 : u < 16384
    · have hL : uint32Len u = 2 := by
        simp only [uint32Len, if_neg h1, if_pos h2]
      rw [hL, natVarint_step (by omega), natVarint_last (by omega)]
      norm_num [List.range_succ]
      omega
    · by_cases h3 : u < 2097152
      · have hL : uint32Len u = 3 := by
          simp only [uint32Len, if_neg h1, if_neg h2, if_pos h3]
        rw [hL, natVarint_step (by omega), natVarint_step (by omega),
          natVarint_last (by omega)]
        norm_num [List.range_succ]
        omega
      · by_cases h4 : u < 268435456
        · have hL : uint32Len u = 4 := by
            simp only [uint32Len, if_neg h1, if_neg h2, if_neg h3, if_pos h4]
          rw [hL, natVarint_step (by omega), natVarint_step (by omega),
            natVarint_step (by omega), natVarint_last (by omega)]
          norm_num [List.range_succ]
          omega
        · have hL : uint32Len u = 5 := by
            simp only [uint32Len, if_neg h1, if_neg h2, if_neg h3, if_neg h4]
          rw [hL, natVarint_step (by omega), natVarint_step (by omega),
            natVarint_step (by omega), natVarint_step (by omega),
            natVarint_last (by omega)]
          norm_num [List.range_succ]
          omega

/-- The emitted byte count of the 32-bit varint loop matches the recorded
byte length for every coerced value. -/
theorem writeVarint32_length (u : Nat) (h : u < 4294967296) :
    (writeVarint32 u).length = uint32Len u := by
  rw [writeVarint32_eq_natVarint, (natVarint_shape u h).1]
  have h1 : 1 ≤ uint32Len u := by
    unfold uint32Len
    split_ifs <;> omega
  simp
  omega

/-! ## String emission produces exactly the pre-scanned byte count -/

theorem writeString_length (s : List Nat) : (writeString s).length = byteLength s := by
  induction s using writeString.induct <;>
    simp only [writeString, byteLength] <;>
    (try split_ifs) <;> simp_all <;> omega

/-! ## The positional finish walk is plain concatenation on good states -/

theorem sumLens_append (a b : List Op) : sumLens (a ++ b) = sumLens a + sumLens b := by
  induction a with
  | nil => simp [sumLens]
  | cons op rest ih => simp [sumLens, ih]; omega

theorem emitAll_append (a b : List Op) : emitAll (a ++ b) = emitAll a ++ emitAll b := by
  induction a with
  | nil => simp [emitAll]
  | cons op rest ih => simp [emitAll, ih]

theorem emitAll_length {ops : List Op} (h : ∀ op ∈ ops, op.Good) :
    (emitAll ops).length = sumLens ops := by
  induction ops with
  | nil => simp [emitAll, sumLens]
  | cons op rest ih =>
    simp only [emitAll, sumLens, List.length_append]
    rw [h op (by simp), ih (fun o ho => h o (by simp [ho]))]

theorem set_append_left_length (front : List Nat) (b : Nat) :
    ∀ t0 tail, (front ++ t0 :: tail).set front.length b = front ++ b :: tail := by
  induction front with
  | nil => intro t0 tail; simp
  | cons x rest ih => intro t0 tail; simp [List.set, ih]

theorem writeAt_eq (bs : List Nat) : ∀ front tail : List Nat, bs.length ≤ tail.length →
    writeAt (front ++ tail) front.length bs = front ++ bs ++ tail.drop bs.length := by
  induction bs with
  | nil => intro front tail _; simp [writeAt]
  | cons b rest ih =>
    intro front tail h
    match tail with
    | [] => simp at h
    | t0 :: tail =>
      rw [writeAt, set_append_left_length]
      have h2 : writeAt (front ++ [b] ++ tail) (front ++ [b]).length rest =
          (front ++ [b]) ++ rest ++ tail.drop rest.length := by
        apply ih
        simpa using Nat.le_of_succ_le_succ (by simpa using h)
      simp only [List.append_assoc, List.singleton_append] at h2
      have h3 : front.length + 1 = (front ++ [b]).length := by simp
      rw [h3]
      simp only [List.append_assoc, List.singleton_append]
      rw [h2]
      simp

theorem finishInternal_eq (ops : List Op) : ∀ front tail : List Nat,
    (∀ op ∈ ops, op.Good) → sumLens ops ≤ tail.length →
    finishInternal (front ++ tail) front.length ops =
      front ++ emitAll ops ++ tail.drop (sumLens ops) := by
  induction ops with
  | nil => intro front tail _ _; simp [finishInternal, emitAll, sumLens]
  | cons op rest ih =>
    intro front tail hg hlen
    have hop : op.fn.emit.length = op.len := hg op (by simp)
    rw [finishInternal, writeAt_eq _ front tail (by rw [hop]; simp [sumLens] at hlen; omega)]
    have h3 : front.length + op.len = (front ++ op.fn.emit).length := by simp [hop]
    rw [h3]
    have h4 : front ++ op.fn.emit ++ tail.drop op.fn.emit.length =
        (front ++ op.fn.emit) ++ tail.drop op.fn.emit.length := by simp
    rw [h4, ih (front ++ op.fn.emit) (tail.drop op.fn.emit.length)
      (fun o ho => hg o (by simp [ho]))
      (by simp [hop, sumLens] at hlen ⊢; omega)]
    simp only [emitAll, sumLens, List.drop_drop, hop, List.append_assoc]


/-- `uint32` on an explicit state, with the pushed op in packaged form. -/
theorem uint32_mk (o : List Op) (l : Nat) (s : List (List Op × Nat)) (v : Int) :
    (WState.mk o l s).uint32 v = ⟨o ++ [uint32Op v], l + (uint32Op v).len, s⟩ := by
  rw [WState.uint32, uint32Op]
  split_ifs <;> rfl


/-! ## Claim theorems -/

/-- C1 (failing input): `fixed64(1)` pushes the `hi` half first, so the
buffer is `00 00 00 00 01 00 00 00` — not the little-endian 64-bit layout
`01 00 00 00 00 00 00 00` the specification requires. -/
theorem c1_fixed64_emits_hi_half_first :
    (WState.empty.fixed64 1).finishBytes = [0, 0, 0, 0, 1, 0, 0, 0] ∧
    (WState.empty.fixed64 1).finishBytes ≠ [1, 0, 0, 0, 0, 0, 0, 0] ∧
    (WState.empty.sfixed64 1).finishBytes = [0, 0, 0, 0, 2, 0, 0, 0] ∧
    (WState.empty.sfixed64 1).finishBytes ≠ [2, 0, 0, 0, 0, 0, 0, 0] := by
  decide

/-- C5: for every string (as its list of UTF-16 code units, surrogates
included), `writeString` stores exactly `byteLength` bytes — the length the
`string` writer enqueues — so the emission stays within the accounted
range. -/
theorem c5_writeString_length_matches_byteLength (w : WState) (s : List Nat) :
    (writeString s).length = byteLength s ∧
    (byteLength s ≠ 0 →
      (w.stringW s).ops =
        (w.uint32 (byteLength s : Int)).ops ++ [⟨.stringOp s, byteLength s⟩] ∧
      (w.stringW s).len = (w.uint32 (byteLength s : Int)).len + byteLength s) := by
  refine ⟨writeString_length s, fun h => ?_⟩
  have he : w.stringW s = (w.uint32 (byteLength s : Int)).push (.stringOp s) (byteLength s) := by
    rw [WState.stringW, if_pos h]
  rw [he]
  exact ⟨rfl, rfl⟩

theorem c5_writeString_length_matches_byteLength_witness :
    byteLength [0xD834] ≠ 0 ∧
    (writeString [0xD834]).length = byteLength [0xD834] ∧
    (WState.empty.stringW [0xD834]).ops =
      (WState.empty.uint32 (byteLength [0xD834] : Int)).ops ++
        [⟨.stringOp [0xD834], byteLength [0xD834]⟩] :=
  ⟨by decide, (c5_writeString_length_matches_byteLength WState.empty [0xD834]).1,
    ((c5_writeString_length_matches_byteLength WState.empty [0xD834]).2 (by decide)).1⟩

/-- C6: a non-negative `int32` behaves exactly as `uint32`; a negative one
enqueues a single 10-byte op holding the sign-extended `LongBits`, and the
64-bit varint emitter writes exactly 10 bytes for it. -/
theorem c6_int32_negative_is_ten_byte_varint64 (w : WState) (v : Int)
    (h1 : -2147483648 ≤ v) (h2 : v < 2147483648) :
    (0 ≤ v → w.int32 v = w.uint32 v) ∧
    (v < 0 → (w.int32 v).ops = w.ops ++ [⟨.varint64Op (LongBits.fromNumber v), 10⟩] ∧
      (w.int32 v).len = w.len + 10 ∧
      (writeVarint64 (LongBits.fromNumber v)).length = 10) := by
  constructor
  · intro hpos
    rw [WState.int32, if_neg (by omega)]
  · intro hneg
    refine ⟨?_, ?_, writeVarint64_fromNumber_neg v h1 hneg⟩
    · rw [WState.int32, if_pos hneg]
      rfl
    · rw [WState.int32, if_pos hneg]
      rfl

theorem c6_int32_negative_is_ten_byte_varint64_witness :
    ((-2147483648 : Int) ≤ -1 ∧ (-1 : Int) < 2147483648 ∧ (-1 : Int) < 0) ∧
    (WState.empty.int32 (-1)).ops =
      [⟨.varint64Op (LongBits.fromNumber (-1)), 10⟩] ∧
    (writeVarint64 (LongBits.fromNumber (-1))).length = 10 :=
  ⟨by norm_num,
   ((c6_int32_negative_is_ten_byte_varint64 WState.empty (-1) (by norm_num)
      (by norm_num)).2 (by norm_num)).1,
   ((c6_int32_negative_is_ten_byte_varint64 WState.empty (-1) (by norm_num)
      (by norm_num)).2 (by norm_num)).2.2⟩

/-- C7: `uint32` enqueues one op whose recorded length follows the 1-8-14-
21-28-bit thresholds, and its emitter stores exactly that many bytes: 7-bit
groups, least-significant first, continuation bit on every byte except the
last, which is below 128. -/
theorem c7_uint32_varint_shape (w : WState) (v : Int) :
    (w.uint32 v).ops = w.ops ++ [uint32Op v] ∧
    (w.uint32 v).len = w.len + uint32Len (toUint32 v) ∧
    (uint32Op v).len = uint32Len (toUint32 v) ∧
    (uint32Op v).fn.emit =
      (List.range (uint32Len (toUint32 v) - 1)).map
        (fun i => toUint32 v / 128 ^ i % 128 + 128)
      ++ [toUint32 v / 128 ^ (uint32Len (toUint32 v) - 1)] ∧
    toUint32 v / 128 ^ (uint32Len (toUint32 v) - 1) < 128 := by
  have hmk : w.uint32 v = ⟨w.ops ++ [uint32Op v], w.len + (uint32Op v).len, w.states⟩ :=
    uint32_mk w.ops w.len w.states v
  have hL : (uint32Op v).len = uint32Len (toUint32 v) := by
    rw [uint32Op, uint32Len]
    split_ifs <;> rfl
  have hshape := natVarint_shape (toUint32 v) (toUint32_lt v)
  refine ⟨by rw [hmk], by rw [hmk, hL], hL, ?_, hshape.2⟩
  by_cases hu : toUint32 v < 128
  · rw [uint32Op, if_pos hu]
    show writeByte (toUint32 v : Int) = _
    rw [writeByte, toUint32_natCast_of_lt (by omega), and_255_eq]
    have hL1 : uint32Len (toUint32 v) = 1 := by rw [uint32Len, if_pos hu]
    rw [hL1]
    simp
    omega
  · rw [uint32Op, if_neg hu]
    show writeVarint32 (toUint32 v) = _
    rw [writeVarint32_eq_natVarint, hshape.1]

/-! ## Zig-zag helpers -/

theorem toInt32_of_range {v : Int} (h1 : -2147483648 ≤ v) (h2 : v < 2147483648) :
    toInt32 v = v := by
  rw [toInt32]
  omega

theorem jsShr31_of_nonneg {v : Int} (h1 : 0 ≤ v) (h2 : v < 2147483648) :
    jsShr v 31 = 0 := by
  rw [jsShr, toInt32_of_range (by omega) h2, Int.fdiv_eq_ediv _ (by norm_num)]
  norm_num
  omega

theorem jsShr31_of_neg {v : Int} (h1 : -2147483648 ≤ v) (h2 : v < 0) :
    jsShr v 31 = -1 := by
  rw [jsShr, toInt32_of_range h1 (by omega), Int.fdiv_eq_ediv _ (by norm_num)]
  norm_num
  omega

/-- The value `sint32` hands to `uint32`: the 32-bit zig-zag map. -/
theorem zz32_value (v : Int) (h1 : -2147483648 ≤ v) (h2 : v < 2147483648) :
    toUint32 (jsXor (jsShl v 1) (jsShr v 31)) =
      if 0 ≤ v then (2 * v).toNat else (-2 * v - 1).toNat := by
  rw [toUint32_jsXor, toUint32_jsShl]
  by_cases hv : 0 ≤ v
  · rw [if_pos hv, jsShr31_of_nonneg hv h2]
    have h0 : toUint32 0 = 0 := by decide
    rw [h0, Nat.xor_zero]
    simp only [toUint32]
    norm_num
    omega
  · rw [if_neg hv, jsShr31_of_neg h1 (by omega)]
    have hm1 : toUint32 (-1) = 4294967295 := by decide
    rw [hm1]
    have hlt : toUint32 v * 2 ^ 1 % 4294967296 < 2 ^ 32 := by norm_num; omega
    have h2p : (4294967295 : Nat) = 2 ^ 32 - 1 := by norm_num
    rw [h2p, xor_ones hlt]
    simp only [toUint32]
    norm_num
    omega

theorem readVarint_natVarint (u : Nat) : readVarint (natVarint u) = u := by
  induction u using Nat.strong_induction_on with
  | _ u ih =>
    by_cases h : 127 < u
    · rw [natVarint_step h, readVarint, ih (u / 128) (by omega), and_127_eq]
      omega
    · rw [natVarint_last (by omega), readVarint, readVarint, and_127_eq]
      omega

/-- C8: `sint32` is `uint32` of the zig-zag `value << 1 ^ value >> 31`;
decoding the emitted varint recovers the zig-zag image, the inverse
zig-zag map recovers the value, and the map is a bijection between the
signed and unsigned 32-bit ranges. -/
theorem c8_sint32_zigzag_roundtrip (w : WState) (v : Int)
    (h1 : -2147483648 ≤ v) (h2 : v < 2147483648) :
    w.sint32 v = w.uint32 (jsXor (jsShl v 1) (jsShr v 31)) ∧
    readVarint (writeVarint32 (toUint32 (jsXor (jsShl v 1) (jsShr v 31)))) =
      toUint32 (jsXor (jsShl v 1) (jsShr v 31)) ∧
    zzDecode32 (toUint32 (jsXor (jsShl v 1) (jsShr v 31))) = v ∧
    (∀ u : Nat, u < 4294967296 →
      toUint32 (jsXor (jsShl (zzDecode32 u) 1) (jsShr (zzDecode32 u) 31)) = u) := by
  refine ⟨rfl, by rw [writeVarint32_eq_natVarint]; exact readVarint_natVarint _, ?_, ?_⟩
  · rw [zz32_value v h1 h2, zzDecode32]
    by_cases hv : 0 ≤ v
    · rw [if_pos hv]
      split_ifs with hpar
      · omega
      · omega
    · rw [if_neg hv]
      split_ifs with hpar
      · omega
      · omega
  · intro u hu
    rw [zzDecode32]
    by_cases hpar : u % 2 = 0
    · rw [if_pos hpar]
      rw [zz32_value _ (by omega) (by omega)]
      rw [if_pos (by positivity)]
      omega
    · rw [if_neg hpar]
      rw [zz32_value _ (by omega) (by omega)]
      rw [if_neg (by omega)]
      omega

theorem c8_sint32_zigzag_roundtrip_witness :
    ((-2147483648 : Int) ≤ -3 ∧ (-3 : Int) < 2147483648) ∧
    WState.empty.sint32 (-3) =
      WState.empty.uint32 (jsXor (jsShl (-3) 1) (jsShr (-3) 31)) ∧
    zzDecode32 (toUint32 (jsXor (jsShl (-3) 1) (jsShr (-3) 31))) = -3 :=
  ⟨by norm_num,
   (c8_sint32_zigzag_roundtrip WState.empty (-3) (by norm_num) (by norm_num)).1,
   (c8_sint32_zigzag_roundtrip WState.empty (-3) (by norm_num) (by norm_num)).2.2.1⟩

theorem or_mod_two_pow (a b k : Nat) : (a ||| b) % 2 ^ k = a % 2 ^ k ||| b % 2 ^ k := by
  rw [← Nat.and_pow_two_sub_one_eq_mod (a ||| b), ← Nat.and_pow_two_sub_one_eq_mod a,
    ← Nat.and_pow_two_sub_one_eq_mod b, Nat.and_distrib_right]

/-- C10: `tag(id, wt)` enqueues a single op of recorded length 1 whose
emitted byte is `((id << 3) | (wt & 7)) & 255`; for `id < 16` and `wt < 8`
this is exactly `(id << 3) | wt`, and for larger ids the value is silently
truncated to its low 8 bits. -/
theorem c10_tag_single_truncated_byte (w : WState) (id wt : Nat) :
    (w.tag (id : Int) (wt : Int)).ops =
      w.ops ++ [⟨.byteOp (jsOr (jsShl (id : Int) 3) (jsAnd (wt : Int) 7)), 1⟩] ∧
    (w.tag (id : Int) (wt : Int)).len = w.len + 1 ∧
    (EmitFn.byteOp (jsOr (jsShl (id : Int) 3) (jsAnd (wt : Int) 7))).emit =
      [((id <<< 3) ||| (wt &&& 7)) &&& 255] ∧
    (id < 16 → wt < 8 → ((id <<< 3) ||| (wt &&& 7)) &&& 255 = (id <<< 3) ||| wt) := by
  refine ⟨rfl, rfl, ?_, ?_⟩
  · show writeByte _ = _
    rw [writeByte, toUint32_jsOr, toUint32_jsShl, toUint32_jsAnd,
      toUint32_natCast id, toUint32_natCast wt]
    have h7 : toUint32 (7 : Int) = 7 := by decide
    rw [h7]
    congr 1
    rw [Nat.shiftLeft_eq, and_255_eq, and_255_eq, and_7_eq, and_7_eq]
    have e256 : (256 : Nat) = 2 ^ 8 := by norm_num
    rw [e256, or_mod_two_pow, or_mod_two_pow]
    congr 1
    · norm_num
    · norm_num
  · intro hid hwt
    rw [Nat.shiftLeft_eq, and_255_eq, and_7_eq]
    have hor : id * 2 ^ 3 ||| wt % 8 = id * 2 ^ 3 + wt % 8 := by
      rw [Nat.or_comm]
      exact or_of_lt_eq_add id (by omega)
    have hor2 : id * 2 ^ 3 ||| wt = id * 2 ^ 3 + wt := by
      rw [Nat.or_comm]
      exact or_of_lt_eq_add id (by omega)
    rw [hor, hor2]
    norm_num
    omega

theorem c10_tag_single_truncated_byte_witness :
    ((3 : Nat) < 16 ∧ (2 : Nat) < 8) ∧
    (((3 : Nat) <<< 3) ||| ((2 : Nat) &&& 7)) &&& 255 = ((3 : Nat) <<< 3) ||| 2 :=
  ⟨by norm_num,
   (c10_tag_single_truncated_byte WState.empty 3 2).2.2.2 (by norm_num) (by norm_num)⟩


/-! ## The pointer-level claims -/

theorem drop_replicate (a : Nat) : ∀ n m : Nat,
    (List.replicate m a).drop n = List.replicate (m - n) a := by
  intro n
  induction n with
  | zero => intro m; simp
  | succ n ih =>
    intro m
    cases m with
    | zero => simp
    | succ m => simp [ih m]

/-- The `finish` walk over a terminating chain whose ops emit exactly their
recorded lengths is the concatenation of their emissions, laid over the
front of the buffer. -/
theorem walkChain_eq (nodes : List JSNode) : ∀ (fuel : Nat) (cur : Option Nat)
    (front tl : List Nat), chainEnds nodes fuel cur = true →
    (∀ op ∈ collectChain nodes fuel cur, op.fn.emit.length = op.len) →
    sumLens (collectChain nodes fuel cur) ≤ tl.length →
    walkChain nodes fuel cur (front ++ tl) front.length =
      front ++ emitAll (collectChain nodes fuel cur) ++
        tl.drop (sumLens (collectChain nodes fuel cur)) := by
  intro fuel
  induction fuel with
  | zero =>
    intro cur front tl hend _ _
    cases cur with
    | none => simp [walkChain, collectChain, emitAll, sumLens]
    | some i => simp [chainEnds] at hend
  | succ fuel ih =>
    intro cur front tl hend hgood hsum
    cases cur with
    | none => simp [walkChain, collectChain, emitAll, sumLens]
    | some i =>
      cases hnode : nodes[i]? with
      | none => simp [chainEnds, hnode] at hend
      | some n =>
        have hend2 : chainEnds nodes fuel n.next = true := by
          simpa [chainEnds, hnode] using hend
        have hcol : collectChain nodes (fuel + 1) (some i) =
            ⟨n.fn, n.len⟩ :: collectChain nodes fuel n.next := by
          simp [collectChain, hnode]
        rw [hcol] at hgood hsum ⊢
        have hop : n.fn.emit.length = n.len := hgood ⟨n.fn, n.len⟩ (by simp)
        have hwalk : walkChain nodes (fuel + 1) (some i) (front ++ tl) front.length =
            walkChain nodes fuel n.next (writeAt (front ++ tl) front.length n.fn.emit)
              (front.length + n.len) := by
          simp [walkChain, hnode]
        rw [hwalk,
          writeAt_eq n.fn.emit front tl (by rw [hop]; simp [sumLens] at hsum; omega)]
        have h3 : front.length + n.len = (front ++ n.fn.emit).length := by simp [hop]
        rw [h3]
        have h4 : front ++ n.fn.emit ++ tl.drop n.fn.emit.length =
            (front ++ n.fn.emit) ++ tl.drop n.fn.emit.length := by simp
        rw [h4, ih n.next (front ++ n.fn.emit) (tl.drop n.fn.emit.length) hend2
          (fun o ho => hgood o (by simp [ho]))
          (by simp [hop, sumLens] at hsum ⊢; omega)]
        simp only [emitAll, sumLens, List.drop_drop, hop, List.append_assoc]

/-- C2 (failing input): three `fork(); ldelim(1)` pairs on one writer
followed by `finish` produce `0A 00 00 00 00 00`, not the
`0A 00 0A 00 0A 00` the claim requires: the unguarded splice of an empty
frame leaves `tail` pointing at the unreachable inner sentinel, so the
second and third length-delimited fields are pushed onto a chain `finish`
never walks, while `len` still counts their bytes. -/
theorem c2_three_repeated_empty_submessages :
    (((JSWriter.new.fork.ldelim (some 1)).fork.ldelim (some 1)).fork.ldelim
        (some 1)).finishBytes = [0x0A, 0x00, 0x00, 0x00, 0x00, 0x00] ∧
    (((JSWriter.new.fork.ldelim (some 1)).fork.ldelim (some 1)).fork.ldelim
        (some 1)).finishBytes ≠ [0x0A, 0x00, 0x0A, 0x00, 0x0A, 0x00] := by
  decide

/-- C3 (failing input): after `fork(); ldelim(1)` twice on one writer, the
recorded `len` is 4 while the ops reachable from `head` — the ops `finish`
will emit — sum to 2: the splice of the second empty frame attaches its tag
and length-prefix ops behind the stale `tail`, unreachable from `head`, yet
still adds their byte count to `len`. -/
theorem c3_len_differs_from_reachable_op_lens :
    ((JSWriter.new.fork.ldelim (some 1)).fork.ldelim (some 1)).len = 4 ∧
    sumLens ((JSWriter.new.fork.ldelim (some 1)).fork.ldelim (some 1)).reachableOps = 2 ∧
    ((JSWriter.new.fork.ldelim (some 1)).fork.ldelim (some 1)).len ≠
      sumLens ((JSWriter.new.fork.ldelim (some 1)).fork.ldelim (some 1)).reachableOps := by
  decide

/-- C4 (failing input): with the empty inner sequence and field id 1,
`fork(); ldelim(1); uint32(5); finish()` yields `0A 00 00` — the `5` lands
on the unreachable chain behind the stale `tail` — while the composition
the claim requires (serialize the empty submessage alone to `B = []`, then
`tag(1, 2); uint32(0); push raw `B`; uint32(5)` on the outer writer) yields
`0A 00 05`. -/
theorem c4_fork_ldelim_differs_from_standalone :
    ((JSWriter.new.fork.ldelim (some 1)).uint32 5).finishBytes = [0x0A, 0x00, 0x00] ∧
    ((((JSWriter.new.tag 1 2).uint32 (JSWriter.new.finishBytes.length : Int)).push
        (.bytesOp JSWriter.new.finishBytes)
        JSWriter.new.finishBytes.length).uint32 5).finishBytes = [0x0A, 0x00, 0x05] ∧
    ((JSWriter.new.fork.ldelim (some 1)).uint32 5).finishBytes ≠
      ((((JSWriter.new.tag 1 2).uint32 (JSWriter.new.finishBytes.length : Int)).push
        (.bytesOp JSWriter.new.finishBytes)
        JSWriter.new.finishBytes.length).uint32 5).finishBytes := by
  decide

/-- C9 (counterexample): on an unbalanced `fork`, `finish` returns the
buffer of the inner frame — here `[5]`, not the outer frame's `[7]` and not
a failure — and the restored outer writer still finishes to `[7]`,
contradicting both alternatives the claim allows. -/
theorem c9_counterexample_finish_inner_not_outer :
    ((JSWriter.new.uint32 7).fork.uint32 5).states ≠ [] ∧
    ((JSWriter.new.uint32 7).fork.uint32 5).finish.1 = [5] ∧
    ((JSWriter.new.uint32 7).fork.uint32 5).finish.1 ≠ [7] ∧
    (((JSWriter.new.uint32 7).fork.uint32 5).finish.2).finishBytes = [7] := by
  decide

/-- C9 (amended): when `finish` is called while the states stack is
non-empty, it finalizes the current (inner) frame — the returned buffer is
the emission of the ops reachable from the inner `head`, zero-padded to the
recorded `len` — and restores the outer frame via `reset`; it neither
returns the outer frame's bytes nor fails.  The hypotheses ask that the
chain from `head.next` terminate, that every reachable op emit exactly its
recorded length, and that the reachable lengths sum to at most `len`;
tail-desynchronized states, where the padding is non-trivial, are
covered. -/
theorem c9_finish_finalizes_current_frame (w : JSWriter) (f : Nat × Nat × Nat)
    (rest : List (Nat × Nat × Nat)) (hs : w.states = f :: rest)
    (hend : chainEnds w.nodes w.nodes.length (nextOf w.nodes w.head) = true)
    (hgood : ∀ op ∈ w.reachableOps, op.fn.emit.length = op.len)
    (hsum : sumLens w.reachableOps ≤ w.len) :
    w.finish.1 = emitAll w.reachableOps ++
      List.replicate (w.len - sumLens w.reachableOps) 0 ∧
    w.finish.2 = ⟨w.nodes, f.1, f.2.1, f.2.2, rest⟩ := by
  have hr : w.reachableOps = collectChain w.nodes w.nodes.length (nextOf w.nodes w.head) :=
    rfl
  rw [hr] at hgood hsum ⊢
  constructor
  · show w.finishBytes = _
    have h0 : w.finishBytes =
        walkChain w.nodes w.nodes.length (nextOf w.nodes w.head)
          ([] ++ List.replicate w.len 0) (List.length ([] : List Nat)) := by
      simp [JSWriter.finishBytes]
    rw [h0, walkChain_eq w.nodes w.nodes.length (nextOf w.nodes w.head) []
      (List.replicate w.len 0) hend hgood (by simpa using hsum)]
    rw [drop_replicate]
    simp
  · show w.reset = _
    rw [JSWriter.reset, hs]

theorem c9_finish_finalizes_current_frame_witness :
    ((JSWriter.new.uint32 7).fork.uint32 5).states = [(0, 1, 1)] ∧
    ((JSWriter.new.uint32 7).fork.uint32 5).finish.1 =
      emitAll ((JSWriter.new.uint32 7).fork.uint32 5).reachableOps ++
        List.replicate (((JSWriter.new.uint32 7).fork.uint32 5).len -
          sumLens ((JSWriter.new.uint32 7).fork.uint32 5).reachableOps) 0 ∧
    ((JSWriter.new.uint32 7).fork.uint32 5).finish.2 =
      ⟨((JSWriter.new.uint32 7).fork.uint32 5).nodes, 0, 1, 1, []⟩ :=
  ⟨by decide,
   (c9_finish_finalizes_current_frame ((JSWriter.new.uint32 7).fork.uint32 5)
      (0, 1, 1) [] (by decide) (by decide) (by decide) (by decide)).1,
   (c9_finish_finalizes_current_frame ((JSWriter.new.uint32 7).fork.uint32 5)
      (0, 1, 1) [] (by decide) (by decide) (by decide) (by decide)).2⟩
